import Mathlib

/-!
Verification development for the resume skills normalization and
temporal-aggregation engine (backend/app/addPeriod.py and
backend/app/services/skills_service.py).

Python dictionaries are embedded as insertion-ordered association lists,
floats used for similarity scores as rationals, machine exceptions
(TypeError and friends) as `Except.error`.
-/

set_option linter.unusedVariables false

namespace ResumeCore

/-- Python dict read: value of the first (unique) binding of key `k`. -/
def dget {α : Type} (m : List (String × α)) (k : String) : Option α :=
  (m.find? (fun p => p.1 = k)).map Prod.snd

/-- Python dict write `m[k] = v`: updates the binding in place when the key
exists (position preserved), otherwise appends a new binding. -/
def dictSet {α : Type} (m : List (String × α)) (k : String) (v : α) : List (String × α) :=
  if m.any (fun p => p.1 = k) then
    m.map (fun p => if p.1 = k then (k, v) else p)
  else m ++ [(k, v)]

/-- The keys of a dict, in insertion order. -/
def keysOf {α : Type} (m : List (String × α)) : List String := m.map Prod.fst

/-- Levenshtein edit distance on character lists: the
`levenshtein_distance` call of addPeriod.py (line 8 import, used at
lines 150 and 181), with unit insert/delete/substitute costs. -/
def levDist (xs ys : List Char) : Nat := levenshtein Levenshtein.defaultCost xs ys

/-- normalize_score (addPeriod.py lines 131-133): `score / max_len if
max_len > 0 else 1.0`, scores as rationals. -/
def normalize_score (score : Nat) (maxLen : Nat) : ℚ :=
  if 0 < maxLen then (score : ℚ) / (maxLen : ℚ) else 1

/-- `s.lower()` at character granularity. -/
def lowerChars (s : String) : List Char := s.data.map Char.toLower

/-- The normalized score both matching loops compute:
`levenshtein_distance(skill.lower(), key.lower()) / max(len(skill), len(key))`
(with the `max_len = 0` case yielding `1.0`). -/
def nscore (a b : String) : ℚ :=
  normalize_score (levDist (lowerChars a) (lowerChars b)) (max a.length b.length)

/-- One iteration of the best-match scan: strict `<` keeps the earliest
best-scoring key (addPeriod.py lines 154-156 and 186-188). -/
def bestStep (skill : String) (acc : Option (String × ℚ)) (k : String) : Option (String × ℚ) :=
  let sc := nscore skill k
  match acc with
  | none => some (k, sc)
  | some (bk, bs) => if sc < bs then some (k, sc) else some (bk, bs)

/-- The scan over the existing keys, threading the current best. -/
def bestFold (skill : String) (acc : Option (String × ℚ)) : List String → Option (String × ℚ)
  | [] => acc
  | k :: ks => bestFold skill (bestStep skill acc k) ks

/-- The full `for existing_skill in ...` scan starting from
`best_match = None, best_score = inf`: the first key always replaces the
`None` start, every later key replaces the current best only on a strictly
smaller score. -/
def bestMatch (skill : String) (keys : List String) : Option (String × ℚ) :=
  bestFold skill none keys

/-- A Python value stored as a "period": either a string (the sentinel
`"N/A"`, the default `''`, or an error message produced by
calculate_date_difference) or a list of integers `[years, months, days]`. -/
inductive PVal where
  | pstr (s : String)
  | plist (l : List Int)
deriving DecidableEq, Repr

/-- `[x + y for x, y in zip(acc, periods)]` (addPeriod.py lines 160 and
163): `zip` truncates to the shorter argument; when `periods` is a
non-empty string and `acc` non-empty, the first element evaluates
`int + str`, raising `TypeError`, modelled as `Except.error ()`. -/
def zipAddVal (acc : List Int) (p : PVal) : Except Unit (List Int) :=
  match p with
  | .plist l => .ok (List.zipWith (· + ·) acc l)
  | .pstr s => if acc.isEmpty || s.isEmpty then .ok [] else .error ()

/-- One iteration of the outer loop of sum_skills_periods (addPeriod.py
lines 144-163).  `best_match and best_score <= (1 - threshold)`: the
empty string is falsy in Python, hence the `bk ≠ ""` conjunct.  The
defaultdict access `summed_skills[skill]` yields `[0, 0, 0]` for a fresh
key, modelled by `getD [0, 0, 0]`. -/
def sumStep (threshold : ℚ) (st : List (String × List Int)) (pair : String × PVal) :
    Except Unit (List (String × List Int)) :=
  let skill := pair.1
  let periods := pair.2
  match bestMatch skill (keysOf st) with
  | some (bk, bs) =>
      if bk ≠ "" ∧ bs ≤ 1 - threshold then
        match zipAddVal ((dget st bk).getD [0, 0, 0]) periods with
        | .ok v => .ok (dictSet st bk v)
        | .error e => .error e
      else
        match zipAddVal ((dget st skill).getD [0, 0, 0]) periods with
        | .ok v => .ok (dictSet st skill v)
        | .error e => .error e
  | none =>
      match zipAddVal ((dget st skill).getD [0, 0, 0]) periods with
      | .ok v => .ok (dictSet st skill v)
      | .error e => .error e

/-- The outer loop of sum_skills_periods, threading the cluster dict. -/
def sumLoop (threshold : ℚ) (st : List (String × List Int)) :
    List (String × PVal) → Except Unit (List (String × List Int))
  | [] => .ok st
  | p :: rest =>
      match sumStep threshold st p with
      | .ok st' => sumLoop threshold st' rest
      | .error e => .error e

/-- sum_skills_periods (addPeriod.py lines 136-169): clusters returned in
insertion order, a raised `TypeError` surfacing as `Except.error`. -/
def sum_skills_periods (l : List (String × PVal)) (threshold : ℚ) :
    Except Unit (List (String × List Int)) :=
  sumLoop threshold [] l

/-- `', '.join(map(str, period))` (addPeriod.py lines 192 and 195). -/
def joinPeriod (l : List Int) : String := String.intercalate ", " (l.map toString)

/-- One iteration of the outer loop of update_existing_skills
(addPeriod.py lines 175-195); same falsy-`best_match` subtlety, and here
the comparison is `best_score <= threshold` directly. -/
def updStep (threshold : ℚ) (m : List (String × String)) (pair : String × List Int) :
    List (String × String) :=
  let skill := pair.1
  let period := pair.2
  match bestMatch skill (keysOf m) with
  | some (bk, bs) =>
      if bk ≠ "" ∧ bs ≤ threshold then dictSet m bk (joinPeriod period)
      else dictSet m skill (joinPeriod period)
  | none => dictSet m skill (joinPeriod period)

/-- update_existing_skills (addPeriod.py lines 172-198), acting on the
inner `skills_dict['skills']` mapping which it mutates and returns. -/
def update_existing_skills (skillsList : List (String × List Int))
    (m : List (String × String)) (threshold : ℚ) : List (String × String) :=
  skillsList.foldl (updStep threshold) m

/-! ### Basic lemmas about the similarity machinery -/

theorem levDist_nil_right (xs : List Char) : levDist xs [] = xs.length := by
  induction xs with
  | nil => simp [levDist]
  | cons x xs ih => simp [levDist, Levenshtein.defaultCost] at ih ⊢; omega

theorem lowerChars_length (s : String) : (lowerChars s).length = s.length := by
  show (s.data.map Char.toLower).length = s.length
  rw [List.length_map]
  rfl

theorem lowerChars_empty : lowerChars "" = [] := rfl

theorem normalize_score_self (n : Nat) : normalize_score n n = 1 := by
  unfold normalize_score
  split
  · rw [div_self]
    exact_mod_cast Nat.pos_iff_ne_zero.mp (by assumption)
  · rfl

/-- Against the empty string every skill scores normalized distance `1`:
either `max_len = 0` (both empty, explicit `1.0` branch) or the distance
is the full length of the other string. -/
theorem nscore_empty_right (s : String) : nscore s "" = 1 := by
  unfold nscore
  rw [lowerChars_empty, levDist_nil_right, lowerChars_length]
  simpa using normalize_score_self s.length

/-! ### Dictionary lemmas -/

theorem mem_keysOf_iff {α : Type} {m : List (String × α)} {k : String} :
    k ∈ keysOf m ↔ ∃ v, (k, v) ∈ m := by
  unfold keysOf
  rw [List.mem_map]
  constructor
  · rintro ⟨⟨a, b⟩, hp, rfl⟩; exact ⟨b, hp⟩
  · rintro ⟨v, hv⟩; exact ⟨(k, v), hv, rfl⟩

theorem any_key_iff {α : Type} (m : List (String × α)) (k : String) :
    (m.any (fun p => p.1 = k)) = true ↔ k ∈ keysOf m := by
  rw [List.any_eq_true, mem_keysOf_iff]
  constructor
  · rintro ⟨⟨a, b⟩, hp, he⟩
    exact ⟨b, by rwa [show a = k from by simpa using he] at hp⟩
  · rintro ⟨v, hv⟩
    exact ⟨(k, v), hv, by simp⟩

theorem keysOf_overwrite {α : Type} (m : List (String × α)) (k : String) (v : α) :
    keysOf (m.map (fun p => if p.1 = k then (k, v) else p)) = keysOf m := by
  unfold keysOf
  rw [List.map_map]
  apply List.map_congr_left
  intro p hp
  by_cases hpk : p.1 = k <;> simp [hpk]

theorem keysOf_dictSet_mem {α : Type} {m : List (String × α)} {k : String} (v : α)
    (h : k ∈ keysOf m) : keysOf (dictSet m k v) = keysOf m := by
  unfold dictSet
  rw [if_pos ((any_key_iff m k).mpr h)]
  exact keysOf_overwrite m k v

theorem keysOf_dictSet_not_mem {α : Type} {m : List (String × α)} {k : String} (v : α)
    (h : ¬ k ∈ keysOf m) : keysOf (dictSet m k v) = keysOf m ++ [k] := by
  unfold dictSet
  rw [if_neg (fun ha => h ((any_key_iff m k).mp ha))]
  unfold keysOf
  simp

theorem mem_keys_dictSet_of_mem {α : Type} {m : List (String × α)} {a k : String} (v : α)
    (h : a ∈ keysOf m) : a ∈ keysOf (dictSet m k v) := by
  by_cases hk : k ∈ keysOf m
  · rwa [keysOf_dictSet_mem v hk]
  · rw [keysOf_dictSet_not_mem v hk]
    exact List.mem_append.mpr (Or.inl h)

theorem find?_overwrite_of_mem {α : Type} {m : List (String × α)} {k : String} (v : α)
    (h : k ∈ keysOf m) :
    ((m.map (fun p => if p.1 = k then (k, v) else p)).find? (fun p => p.1 = k)) = some (k, v) := by
  induction m with
  | nil => simp [keysOf] at h
  | cons p rest ih =>
    by_cases hpk : p.1 = k
    · simp [List.find?, hpk]
    · have h' : k ∈ keysOf rest := by
        obtain ⟨w, hw⟩ := mem_keysOf_iff.mp h
        rcases List.mem_cons.mp hw with h1 | h2
        · exact absurd (congrArg Prod.fst h1).symm hpk
        · exact mem_keysOf_iff.mpr ⟨w, h2⟩
      simp only [List.map_cons, if_neg hpk]
      rw [List.find?_cons_of_neg _ (by simpa using hpk)]
      exact ih h'

theorem find?_overwrite_ne {α : Type} (m : List (String × α)) {a k : String} (v : α)
    (h : ¬ a = k) :
    ((m.map (fun p => if p.1 = k then (k, v) else p)).find? (fun p => p.1 = a))
      = m.find? (fun p => p.1 = a) := by
  induction m with
  | nil => rfl
  | cons p rest ih =>
    by_cases hpk : p.1 = k
    · have h1 : ¬ (k = a) := fun he => h he.symm
      have h2 : ¬ (p.1 = a) := fun he => h (he.symm.trans hpk)
      simp only [List.map_cons, if_pos hpk]
      rw [List.find?_cons_of_neg _ (by simpa using h1),
        List.find?_cons_of_neg _ (by simpa using h2)]
      exact ih
    · simp only [List.map_cons, if_neg hpk]
      by_cases hpa : p.1 = a
      · rw [List.find?_cons_of_pos _ (by simpa using hpa),
          List.find?_cons_of_pos _ (by simpa using hpa)]
      · rw [List.find?_cons_of_neg _ (by simpa using hpa),
          List.find?_cons_of_neg _ (by simpa using hpa)]
        exact ih

theorem find?_append_single_of_not_mem {α : Type} {m : List (String × α)} {k : String} (v : α)
    (h : ¬ k ∈ keysOf m) :
    ((m ++ [(k, v)]).find? (fun p => p.1 = k)) = some (k, v) := by
  induction m with
  | nil => simp [List.find?]
  | cons p rest ih =>
    have hpk : ¬ p.1 = k := by
      intro he
      exact h (mem_keysOf_iff.mpr ⟨p.2, by rw [← he]; simp⟩)
    have h' : ¬ k ∈ keysOf rest := by
      intro hm
      obtain ⟨w, hw⟩ := mem_keysOf_iff.mp hm
      exact h (mem_keysOf_iff.mpr ⟨w, List.mem_cons_of_mem p hw⟩)
    rw [List.cons_append, List.find?_cons_of_neg _ (by simpa using hpk)]
    exact ih h'

theorem dget_dictSet_self {α : Type} (m : List (String × α)) (k : String) (v : α) :
    dget (dictSet m k v) k = some v := by
  unfold dictSet dget
  by_cases hk : m.any (fun p => p.1 = k) = true
  · rw [if_pos hk, find?_overwrite_of_mem v ((any_key_iff m k).mp hk)]
    rfl
  · rw [if_neg hk, find?_append_single_of_not_mem v (fun hm => hk ((any_key_iff m k).mpr hm))]
    rfl

theorem dget_dictSet_ne {α : Type} (m : List (String × α)) {a k : String} (v : α)
    (h : ¬ a = k) : dget (dictSet m k v) a = dget m a := by
  unfold dictSet dget
  by_cases hk : m.any (fun p => p.1 = k) = true
  · rw [if_pos hk, find?_overwrite_ne m v h]
  · rw [if_neg hk, List.find?_append]
    cases hfm : m.find? (fun p => p.1 = a) with
    | some p => simp
    | none =>
      simp [List.find?, Ne.symm h]

/-! ### Characterization of the best-match scan -/

/-- `b` is the first minimum of `processed`: everything before it scores
strictly worse, everything after scores no better. -/
def FirstMin (skill : String) (processed : List String) (b : String × ℚ) : Prop :=
  ∃ l1 l2, processed = l1 ++ b.1 :: l2 ∧ b.2 = nscore skill b.1
    ∧ (∀ k ∈ l1, b.2 < nscore skill k) ∧ (∀ k ∈ l2, b.2 ≤ nscore skill k)

theorem bestFold_firstMin (skill : String) :
    ∀ (keys : List String) (processed : List String) (b : String × ℚ),
      FirstMin skill processed b →
      ∃ b', bestFold skill (some b) keys = some b'
        ∧ FirstMin skill (processed ++ keys) b' := by
  intro keys
  induction keys with
  | nil =>
    intro processed b hb
    exact ⟨b, rfl, by simpa using hb⟩
  | cons k ks ih =>
    intro processed b hb
    obtain ⟨l1, l2, hsplit, hscore, habove, hbelow⟩ := hb
    by_cases h : nscore skill k < b.2
    · have hb' : FirstMin skill (processed ++ [k]) (k, nscore skill k) := by
        refine ⟨processed, [], by simp, rfl, ?_, by simp⟩
        intro j hj
        rw [hsplit] at hj
        rcases List.mem_append.mp hj with hj1 | hj2
        · exact lt_trans h (habove j hj1)
        · rcases List.mem_cons.mp hj2 with hj3 | hj4
          · rw [hj3, ← hscore]; exact h
          · exact lt_of_lt_of_le h (hbelow j hj4)
      have := ih (processed ++ [k]) (k, nscore skill k) hb'
      simpa [bestFold, bestStep, h, List.append_assoc] using this
    · have hb' : FirstMin skill (processed ++ [k]) b := by
        refine ⟨l1, l2 ++ [k], by rw [hsplit]; simp, hscore, habove, ?_⟩
        intro j hj
        rcases List.mem_append.mp hj with hj1 | hj2
        · exact hbelow j hj1
        · rcases List.mem_singleton.mp hj2 with rfl
          exact le_of_not_lt h
      have := ih (processed ++ [k]) b hb'
      simpa [bestFold, bestStep, h, List.append_assoc] using this

/-- The scanned best match is the earliest key attaining the minimal
normalized score; `none` only for an empty key list. -/
theorem bestMatch_firstMin (skill : String) (keys : List String) :
    (keys = [] ∧ bestMatch skill keys = none)
  ∨ ∃ b, bestMatch skill keys = some b ∧ FirstMin skill keys b := by
  cases keys with
  | nil => exact Or.inl ⟨rfl, rfl⟩
  | cons k ks =>
    right
    have h0 : FirstMin skill [k] (k, nscore skill k) :=
      ⟨[], [], rfl, rfl, by simp, by simp⟩
    have := bestFold_firstMin skill ks [k] (k, nscore skill k) h0
    simpa [bestMatch, bestFold, bestStep] using this

theorem firstMin_min {skill : String} {keys : List String} {b : String × ℚ}
    (h : FirstMin skill keys b) :
    b.1 ∈ keys ∧ b.2 = nscore skill b.1 ∧ ∀ k ∈ keys, b.2 ≤ nscore skill k := by
  obtain ⟨l1, l2, hsplit, hscore, habove, hbelow⟩ := h
  refine ⟨by rw [hsplit]; simp, hscore, ?_⟩
  intro k hk
  rw [hsplit] at hk
  rcases List.mem_append.mp hk with h1 | h2
  · exact le_of_lt (habove k h1)
  · rcases List.mem_cons.mp h2 with h3 | h4
    · rw [h3, ← hscore]
    · exact hbelow k h4

theorem bestMatch_some_of_mem {skill k : String} {keys : List String}
    (h : k ∈ keys) : ∃ b, bestMatch skill keys = some b ∧ FirstMin skill keys b := by
  rcases bestMatch_firstMin skill keys with ⟨he, _⟩ | hr
  · rw [he] at h; simp at h
  · exact hr

/-! ### Key-policy lemmas for the merge step -/

theorem updStep_keys_mono (t : ℚ) (m : List (String × String)) (pr : String × List Int)
    {a : String} (h : a ∈ keysOf m) : a ∈ keysOf (updStep t m pr) := by
  simp only [updStep]
  cases hbm : bestMatch pr.1 (keysOf m) with
  | none => exact mem_keys_dictSet_of_mem _ h
  | some b =>
    obtain ⟨bk, bs⟩ := b
    by_cases hc : bk ≠ "" ∧ bs ≤ t
    · dsimp only
      rw [if_pos hc]
      exact mem_keys_dictSet_of_mem _ h
    · dsimp only
      rw [if_neg hc]
      exact mem_keys_dictSet_of_mem _ h

theorem update_keys_mono (t : ℚ) :
    ∀ (sl : List (String × List Int)) (m : List (String × String)) (a : String),
      a ∈ keysOf m → a ∈ keysOf (update_existing_skills sl m t) := by
  intro sl
  induction sl with
  | nil => intro m a h; exact h
  | cons pr rest ih =>
    intro m a h
    exact ih (updStep t m pr) a (updStep_keys_mono t m pr h)

/-! ### Claims C1, C3, C6 -/

/-- C1: refuted (bug in the code) — the pipeline's own sentinel `"N/A"`
makes sum_skills_periods raise `TypeError` instead of returning
normally: `zip([0, 0, 0], "N/A")` pairs the accumulator integers with
the characters of the string and the first element evaluates
`0 + 'N'`, so no all-zero contribution ever happens. -/
theorem C1_sum_skills_periods_na_raises :
    sum_skills_periods [("Python", PVal.pstr "N/A")] (4/5) = .error () := rfl

/-- C3: confirmed — for every pair of integer period triples, aggregating
`[("JavaScript", p1), ("Javascript", p2)]` at threshold 0.8 in either
order yields exactly one cluster holding the component-wise sum `p1 + p2`,
whose canonical name is the first-seen spelling of that ordering. -/
theorem C3_fuzzy_merge_either_order (a b c a' b' c' : Int) :
    sum_skills_periods [("JavaScript", PVal.plist [a, b, c]),
        ("Javascript", PVal.plist [a', b', c'])] (4/5)
      = .ok [("JavaScript", [a + a', b + b', c + c'])]
  ∧ sum_skills_periods [("Javascript", PVal.plist [a', b', c']),
        ("JavaScript", PVal.plist [a, b, c])] (4/5)
      = .ok [("Javascript", [a + a', b + b', c + c'])] := by
  have h1 : nscore "Javascript" "JavaScript" = 0 := by
    unfold nscore
    rw [show levDist (lowerChars "Javascript") (lowerChars "JavaScript") = 0 from rfl,
      show max "Javascript".length "JavaScript".length = 10 from rfl]
    norm_num [normalize_score]
  have h2 : nscore "JavaScript" "Javascript" = 0 := by
    unfold nscore
    rw [show levDist (lowerChars "JavaScript") (lowerChars "Javascript") = 0 from rfl,
      show max "JavaScript".length "Javascript".length = 10 from rfl]
    norm_num [normalize_score]
  constructor
  · simp [sum_skills_periods, sumLoop, sumStep, bestMatch, bestFold, bestStep,
      keysOf, dget, dictSet, zipAddVal, h1, h2]
    norm_num
  · simp [sum_skills_periods, sumLoop, sumStep, bestMatch, bestFold, bestStep,
      keysOf, dget, dictSet, zipAddVal, h1, h2]
    norm_num
    exact ⟨Int.add_comm a' a, Int.add_comm b' b, Int.add_comm c' c⟩

/-- C6 counterexample: with both strings empty the aggregator computes
`normalize_score(0, 0) = 1.0` as the normalized DISTANCE, so the
normalized similarity `1 - distance` is `0`, not `1.0` as claimed. -/
theorem C6_cex_empty_similarity_is_zero :
    1 - nscore "" "" = 0 ∧ ¬ (1 - nscore "" "" = (1 : ℚ)) := by
  rw [nscore_empty_right]
  norm_num

/-- C6 (amended): `normalize_score(0, 0) = 1.0` is the maximal normalized
distance (similarity `0`), and the empty-string best match is falsy in
`if best_match and ...`, so the threshold branch is never taken; the
pair with empty name nevertheless merges into the existing empty-named
cluster — for every threshold — because the dict key `""` collides in
the fall-through branch, leaving a single cluster with the summed
period. -/
theorem C6_amended_empty_merges_by_key_collision :
    nscore "" "" = 1
  ∧ ∀ (a b c a' b' c' : Int) (t : ℚ),
      sum_skills_periods [("", PVal.plist [a, b, c]), ("", PVal.plist [a', b', c'])] t
        = .ok [("", [a + a', b + b', c + c'])] := by
  refine ⟨nscore_empty_right "", fun a b c a' b' c' t => ?_⟩
  simp [sum_skills_periods, sumLoop, sumStep, bestMatch, bestFold, bestStep,
    keysOf, dget, dictSet, zipAddVal]


/-- C4: confirmed — at the merge threshold 0.5, (i) every key present in
the skills map before the merge is still present afterwards; (ii) a step
never adds a key when some existing key already matches within the
threshold (normalized distance at most 0.5, i.e. similarity at least
0.5); (iii) on a best match within the threshold, the matched key is
overwritten with the comma-joined period components. -/
theorem C4_update_existing_skills_key_policy :
    (∀ (sl : List (String × List Int)) (m : List (String × String)) (a : String),
        a ∈ keysOf m → a ∈ keysOf (update_existing_skills sl m (1/2)))
  ∧ (∀ (m : List (String × String)) (skill : String) (period : List Int),
        (∃ k ∈ keysOf m, nscore skill k ≤ 1/2) →
          keysOf (updStep (1/2) m (skill, period)) = keysOf m)
  ∧ (∀ (m : List (String × String)) (skill : String) (period : List Int)
        (bk : String) (bs : ℚ),
        bestMatch skill (keysOf m) = some (bk, bs) → bs ≤ 1/2 →
          dget (updStep (1/2) m (skill, period)) bk = some (joinPeriod period)) := by
  refine ⟨update_keys_mono (1/2), ?_, ?_⟩
  · rintro m skill period ⟨k, hk, hle⟩
    obtain ⟨b, hbm, hfm⟩ := @bestMatch_some_of_mem skill k (keysOf m) hk
    obtain ⟨bk, bs⟩ := b
    obtain ⟨hmem, hsc, hmin⟩ := firstMin_min hfm
    dsimp only at hmem hsc hmin
    have hbs : bs ≤ 1/2 := le_trans (hmin k hk) hle
    have hbk : bk ≠ "" := by
      intro he
      rw [he, nscore_empty_right] at hsc
      rw [hsc] at hbs
      norm_num at hbs
    simp only [updStep]
    rw [hbm]
    dsimp only
    rw [if_pos ⟨hbk, hbs⟩]
    exact keysOf_dictSet_mem _ hmem
  · intro m skill period bk bs hbm hbs
    rcases bestMatch_firstMin skill (keysOf m) with ⟨_, he⟩ | ⟨b, hb, hfm⟩
    · rw [hbm] at he; cases he
    · rw [hbm] at hb
      injection hb with hb'
      subst hb'
      obtain ⟨hmem, hsc, hmin⟩ := firstMin_min hfm
      dsimp only at hmem hsc hmin
      have hbk : bk ≠ "" := by
        intro he
        rw [he, nscore_empty_right] at hsc
        rw [hsc] at hbs
        norm_num at hbs
      simp only [updStep]
      rw [hbm]
      dsimp only
      rw [if_pos ⟨hbk, hbs⟩]
      exact dget_dictSet_self m bk (joinPeriod period)

/-- C4 witness: merging the aggregated record `("a", [1, 2, 0])` into a
map holding the single key `"ab"` (distance 1/2, similarity 1/2, at the
threshold) overwrites `"ab"` with `"1, 2, 0"` and adds no key. -/
theorem C4_update_existing_skills_key_policy_witness :
    keysOf (update_existing_skills [("a", [1, 2, 0])] [("ab", "N/A")] (1/2)) = ["ab"]
  ∧ dget (updStep (1/2) [("ab", "N/A")] ("a", [1, 2, 0])) "ab" = some "1, 2, 0" := by
  have hsc : nscore "a" "ab" = 1/2 := by
    unfold nscore
    rw [show levDist (lowerChars "a") (lowerChars "ab") = 1 from rfl,
      show max ("a".length) ("ab".length) = 2 from rfl]
    norm_num [normalize_score]
  have hbm : bestMatch "a" ["ab"] = some ("ab", nscore "a" "ab") := rfl
  constructor
  · have h2 := C4_update_existing_skills_key_policy.2.1 [("ab", "N/A")] "a" [1, 2, 0]
      ⟨"ab", by simp [keysOf], le_of_eq hsc⟩
    show keysOf (updStep (1/2) [("ab", "N/A")] ("a", [1, 2, 0])) = ["ab"]
    rw [h2]
    rfl
  · have h3 := C4_update_existing_skills_key_policy.2.2 [("ab", "N/A")] "a" [1, 2, 0]
      "ab" (nscore "a" "ab") hbm (le_of_eq hsc)
    rw [h3]
    rfl

/-- C5: confirmed — both aggregation and merge are deterministic
functions of their input, and the best-match scan used by both selects
the earliest-created cluster among those tying for the minimal
normalized score (everything before the selected key scores strictly
worse, everything after no better); under the threshold test the
incoming pair is then summed into exactly that cluster. -/
theorem C5_deterministic_and_earliest_tiebreak :
    (∀ (l : List (String × PVal)) (t : ℚ),
        sum_skills_periods l t = sum_skills_periods l t)
  ∧ (∀ (sl : List (String × List Int)) (m : List (String × String)) (t : ℚ),
        update_existing_skills sl m t = update_existing_skills sl m t)
  ∧ (∀ (skill : String) (keys : List String) (bk : String) (bs : ℚ),
        bestMatch skill keys = some (bk, bs) →
          bs = nscore skill bk
        ∧ ∃ l1 l2, keys = l1 ++ bk :: l2
            ∧ (∀ k ∈ l1, bs < nscore skill k)
            ∧ (∀ k ∈ l2, bs ≤ nscore skill k))
  ∧ (∀ (t : ℚ) (st : List (String × List Int)) (skill : String) (pv : PVal)
        (bk : String) (bs : ℚ) (v : List Int),
        bestMatch skill (keysOf st) = some (bk, bs) → bk ≠ "" → bs ≤ 1 - t →
        zipAddVal ((dget st bk).getD [0, 0, 0]) pv = .ok v →
          sumStep t st (skill, pv) = .ok (dictSet st bk v)) := by
  refine ⟨fun l t => rfl, fun sl m t => rfl, ?_, ?_⟩
  · intro skill keys bk bs hbm
    rcases bestMatch_firstMin skill keys with ⟨_, he⟩ | ⟨b, hb, hfm⟩
    · rw [hbm] at he; cases he
    · rw [hbm] at hb
      injection hb with hb'
      subst hb'
      obtain ⟨l1, l2, hsplit, hscore, habove, hbelow⟩ := hfm
      exact ⟨hscore, l1, l2, hsplit, habove, hbelow⟩
  · intro t st skill pv bk bs v hbm hbk hbs hzip
    simp only [sumStep]
    rw [hbm]
    dsimp only
    rw [if_pos ⟨hbk, hbs⟩, hzip]

/-- C5 witness: with two clusters `"ab"` and `"cd"` both at normalized
distance 1 from `"x"` (a tie), the scan selects the earliest cluster
`"ab"`, and at threshold 0 the pair is summed into it. -/
theorem C5_deterministic_and_earliest_tiebreak_witness :
    nscore "x" "ab" = 1 ∧ nscore "x" "cd" = 1
  ∧ sumStep 0 [("ab", [1, 0, 0]), ("cd", [2, 0, 0])] ("x", PVal.plist [5, 0, 0])
      = .ok [("ab", [6, 0, 0]), ("cd", [2, 0, 0])] := by
  have h1 : nscore "x" "ab" = 1 := by
    unfold nscore
    rw [show levDist (lowerChars "x") (lowerChars "ab") = 2 from rfl,
      show max ("x".length) ("ab".length) = 2 from rfl]
    norm_num [normalize_score]
  have h2 : nscore "x" "cd" = 1 := by
    unfold nscore
    rw [show levDist (lowerChars "x") (lowerChars "cd") = 2 from rfl,
      show max ("x".length) ("cd".length) = 2 from rfl]
    norm_num [normalize_score]
  have hbm : bestMatch "x" ["ab", "cd"] = some ("ab", 1) := by
    simp [bestMatch, bestFold, bestStep, h1, h2]
  have h4 := C5_deterministic_and_earliest_tiebreak.2.2.2 0
    [("ab", [1, 0, 0]), ("cd", [2, 0, 0])] "x" (PVal.plist [5, 0, 0])
    "ab" 1 [6, 0, 0] hbm (by simp) (by norm_num) rfl
  refine ⟨h1, h2, h4.trans ?_⟩
  simp [dictSet]

/-! ### Skill extraction (addPeriod.py lines 83-129) -/

/-- The `technologies` field of a record: a comma-separated string, a
list of strings, absent, or a value of any other type. -/
inductive TechVal where
  | tstr (s : String)
  | tlist (l : List String)
  | absent
  | other
deriving DecidableEq, Repr

/-- The technologies a record contributes (lines 92-99, with the
truthiness guard of line 92): an empty string or list is falsy and
contributes nothing; a string is split on commas with each token
stripped; other types contribute nothing. -/
def techList : TechVal → List String
  | .tstr s => if s = "" then [] else (s.splitOn ",").map (fun t => t.trim)
  | .tlist l => l
  | .absent => []
  | .other => []

/-- A resume section: a dict-shaped record with its `technologies` field
and optional `period` field, a list of sections (processed recursively
in order), or a value of any other shape (ignored). -/
inductive RSection where
  | record (techs : TechVal) (period : Option PVal)
  | seq (items : List RSection)
  | other

mutual

/-- add_skills_from_section (lines 88-109) on a dict-shaped section:
`skills_periods[tech] = period` for each technology, the period
defaulting to `''` via `section.get('period', '')`. -/
def add_skills_from_section : RSection → List (String × PVal) → List (String × PVal)
  | .record techs p, m =>
      (techList techs).foldl (fun acc tc => dictSet acc tc (p.getD (PVal.pstr ""))) m
  | .seq items, m => add_skills_from_list items m
  | .other, m => m

/-- add_skills_from_section on a list: recursive processing in order. -/
def add_skills_from_list : List RSection → List (String × PVal) → List (String × PVal)
  | [], m => m
  | s :: rest, m => add_skills_from_list rest (add_skills_from_section s m)

end

mutual

/-- The (technology, period) assignments a section generates, in
processing order (a derived specification of the traversal). -/
def secOccs : RSection → List (String × PVal)
  | .record techs p => (techList techs).map (fun tc => (tc, p.getD (PVal.pstr "")))
  | .seq items => sOccs items
  | .other => []

/-- Assignments of a list of sections, in order. -/
def sOccs : List RSection → List (String × PVal)
  | [] => []
  | s :: rest => secOccs s ++ sOccs rest

end

/-- The internship loop (lines 121-123): a technology is written only
when its name is not yet a key — first occurrence wins. -/
def internAdd (m : List (String × PVal)) : List String → List (String × PVal)
  | [] => m
  | tc :: rest =>
      internAdd (if m.any (fun p => p.1 = tc) then m else dictSet m tc (PVal.pstr "N/A")) rest

/-- The `internship` field: absent, present but not a string, or a
string (line 118 checks `isinstance(..., str)` and truthiness). -/
inductive InternVal where
  | absent
  | nonstr
  | istr (s : String)

/-- The top-level fields extract_skills_periods reads. -/
structure RData where
  workExperience : Option RSection
  projects : Option RSection
  internship : InternVal

/-- extract_skills_periods (lines 83-129): work experience, then
projects, then the internship string; the final dict is returned as its
item list. -/
def extract_skills_periods (d : RData) : List (String × PVal) :=
  let m1 := match d.workExperience with
    | some s => add_skills_from_section s []
    | none => []
  let m2 := match d.projects with
    | some s => add_skills_from_section s m1
    | none => m1
  match d.internship with
  | .istr s =>
      if s = "" then m2
      else internAdd m2 ((s.splitOn ",").map (fun t => t.trim))
  | _ => m2

/-- Technologies contributed by the internship field. -/
def internTechs (d : RData) : List String :=
  match d.internship with
  | .istr s => if s = "" then [] else (s.splitOn ",").map (fun t => t.trim)
  | _ => []

/-- All work-experience and projects assignments, in processing order. -/
def wpOccs (d : RData) : List (String × PVal) :=
  (match d.workExperience with
   | some s => secOccs s
   | none => []) ++
  (match d.projects with
   | some s => secOccs s
   | none => [])

/-- The period of the last work/projects record writing technology `tc`. -/
def lastOcc (d : RData) (tc : String) : Option PVal :=
  ((wpOccs d).reverse.find? (fun p => p.1 = tc)).map Prod.snd

/-! ### Extraction lemmas -/

mutual

theorem add_skills_section_eq (s : RSection) (m : List (String × PVal)) :
    add_skills_from_section s m
      = (secOccs s).foldl (fun acc p => dictSet acc p.1 p.2) m := by
  cases s with
  | record techs p =>
      simp [add_skills_from_section, secOccs, List.foldl_map]
  | seq items =>
      rw [add_skills_from_section, secOccs]
      exact add_skills_list_eq items m
  | other => rfl

theorem add_skills_list_eq (l : List RSection) (m : List (String × PVal)) :
    add_skills_from_list l m
      = (sOccs l).foldl (fun acc p => dictSet acc p.1 p.2) m := by
  cases l with
  | nil => rfl
  | cons s rest =>
      rw [add_skills_from_list, sOccs, List.foldl_append,
        ← add_skills_section_eq s m]
      exact add_skills_list_eq rest (add_skills_from_section s m)

end

theorem dget_isSome_of_mem {α : Type} {m : List (String × α)} {tc : String}
    (h : tc ∈ keysOf m) : ∃ v, dget m tc = some v := by
  obtain ⟨v, hv⟩ := mem_keysOf_iff.mp h
  unfold dget
  have : (m.find? (fun p => p.1 = tc)).isSome := by
    rw [List.find?_isSome]
    exact ⟨(tc, v), hv, by simp⟩
  obtain ⟨q, hq⟩ := Option.isSome_iff_exists.mp this
  exact ⟨q.2, by rw [hq]; rfl⟩

theorem dget_eq_none_of_not_mem {α : Type} {m : List (String × α)} {tc : String}
    (h : ¬ tc ∈ keysOf m) : dget m tc = none := by
  unfold dget
  rw [List.find?_eq_none.mpr]
  · rfl
  · intro p hp
    simp only [decide_eq_true_eq]
    intro he
    exact h (mem_keysOf_iff.mpr ⟨p.2, by rw [← he]; simpa using hp⟩)

theorem dget_foldl_dictSet (l : List (String × PVal)) :
    ∀ (m : List (String × PVal)) (tc : String),
      dget (l.foldl (fun acc p => dictSet acc p.1 p.2) m) tc
        = match l.reverse.find? (fun p => p.1 = tc) with
          | some pr => some pr.2
          | none => dget m tc := by
  induction l with
  | nil => intro m tc; rfl
  | cons p rest ih =>
    intro m tc
    rw [List.foldl_cons, ih, List.reverse_cons, List.find?_append]
    cases hf : rest.reverse.find? (fun q => q.1 = tc) with
    | some q => rfl
    | none =>
      by_cases htc : p.1 = tc
      · have h1 : List.find? (fun q => q.1 = tc) [p] = some p :=
          List.find?_cons_of_pos _ (by simpa using htc)
        rw [h1]
        simp only [Option.none_or]
        rw [← htc, dget_dictSet_self]
      · have h1 : List.find? (fun q => q.1 = tc) [p] = none := by
          rw [List.find?_cons_of_neg _ (by simpa using htc)]
          rfl
        rw [h1]
        simp only [Option.none_or]
        rw [dget_dictSet_ne m p.2 (fun he => htc he.symm)]

theorem dget_internAdd (ts : List String) :
    ∀ (m : List (String × PVal)) (tc : String),
      dget (internAdd m ts) tc
        = match dget m tc with
          | some v => some v
          | none => if tc ∈ ts then some (PVal.pstr "N/A") else none := by
  induction ts with
  | nil =>
    intro m tc
    cases hg : dget m tc <;> simp [internAdd, hg]
  | cons t rest ih =>
    intro m tc
    rw [internAdd]
    by_cases hmem : m.any (fun p => p.1 = t) = true
    · rw [if_pos hmem, ih]
      cases hg : dget m tc with
      | some v => rfl
      | none =>
        by_cases htc : tc = t
        · subst htc
          obtain ⟨v, hv⟩ := dget_isSome_of_mem ((any_key_iff m tc).mp hmem)
          rw [hv] at hg
          cases hg
        · simp [List.mem_cons, htc]
    · rw [if_neg hmem, ih]
      by_cases htc : tc = t
      · subst htc
        have hg : dget m tc = none :=
          dget_eq_none_of_not_mem (fun hm => hmem ((any_key_iff m tc).mpr hm))
        rw [hg, dget_dictSet_self]
        simp
      · rw [dget_dictSet_ne m (PVal.pstr "N/A") htc]
        cases hg : dget m tc with
        | some v => rfl
        | none => simp [List.mem_cons, htc]

theorem keys_nodup_dictSet {α : Type} {m : List (String × α)} {k : String} (v : α)
    (h : (keysOf m).Nodup) : (keysOf (dictSet m k v)).Nodup := by
  by_cases hk : k ∈ keysOf m
  · rwa [keysOf_dictSet_mem v hk]
  · rw [keysOf_dictSet_not_mem v hk]
    simp [List.nodup_append, h, hk]

theorem keys_nodup_foldl_dictSet (l : List (String × PVal)) :
    ∀ (m : List (String × PVal)), (keysOf m).Nodup →
      (keysOf (l.foldl (fun acc p => dictSet acc p.1 p.2) m)).Nodup := by
  induction l with
  | nil => intro m h; exact h
  | cons p rest ih =>
    intro m h
    exact ih _ (keys_nodup_dictSet p.2 h)

theorem keys_nodup_internAdd (ts : List String) :
    ∀ (m : List (String × PVal)), (keysOf m).Nodup →
      (keysOf (internAdd m ts)).Nodup := by
  induction ts with
  | nil => intro m h; exact h
  | cons t rest ih =>
    intro m h
    rw [internAdd]
    by_cases hmem : m.any (fun p => p.1 = t) = true
    · rw [if_pos hmem]; exact ih m h
    · rw [if_neg hmem]; exact ih _ (keys_nodup_dictSet _ h)


/-- Uniform reduction of extract_skills_periods: the work and projects
traversals are a left fold of dict writes over the assignment list, then
the internship first-wins pass runs over the internship technologies. -/
theorem extract_eq_core (w pj : Option RSection) (intern : InternVal) :
    extract_skills_periods ⟨w, pj, intern⟩
      = internAdd
          ((wpOccs ⟨w, pj, intern⟩).foldl (fun acc p => dictSet acc p.1 p.2) [])
          (internTechs ⟨w, pj, intern⟩) := by
  have hm1 : (match w with
        | some s => add_skills_from_section s []
        | none => ([] : List (String × PVal)))
      = (match w with | some s => secOccs s | none => []).foldl
          (fun (acc : List (String × PVal)) (p : String × PVal) =>
            dictSet acc p.1 p.2) [] := by
    cases w with
    | some s => exact add_skills_section_eq s []
    | none => rfl
  have hm2 : ∀ (m : List (String × PVal)),
      (match pj with | some s => add_skills_from_section s m | none => m)
      = (match pj with | some s => secOccs s | none => []).foldl
          (fun (acc : List (String × PVal)) (p : String × PVal) =>
            dictSet acc p.1 p.2) m := by
    intro m
    cases pj with
    | some s => exact add_skills_section_eq s m
    | none => rfl
  unfold extract_skills_periods wpOccs internTechs
  dsimp only
  rw [hm1, hm2, ← List.foldl_append]
  cases intern with
  | absent => rfl
  | nonstr => rfl
  | istr s =>
    dsimp only
    by_cases hs : s = ""
    · rw [if_pos hs, if_pos hs]
      rfl
    · rw [if_neg hs, if_neg hs]

/-- C9: confirmed — extract_skills_periods emits at most one pair per
verbatim skill name (the key list has no duplicates), the pair for a
name written by work-experience or projects records carries the period
of the last such record in traversal order (later writes overwrite
earlier ones), and the internship pass only fills names not already
present, with the sentinel `"N/A"` (first occurrence wins, never
overwriting). -/
theorem C9_extract_unique_keys_last_write_wins (d : RData) :
    ((extract_skills_periods d).map Prod.fst).Nodup
  ∧ ∀ (tc : String),
      dget (extract_skills_periods d) tc
        = match lastOcc d tc with
          | some p => some p
          | none => if tc ∈ internTechs d then some (PVal.pstr "N/A") else none := by
  obtain ⟨w, pj, intern⟩ := d
  rw [extract_eq_core w pj intern]
  constructor
  · exact keys_nodup_internAdd _ _ (keys_nodup_foldl_dictSet _ _ (by simp [keysOf]))
  · intro tc
    rw [dget_internAdd, dget_foldl_dictSet]
    unfold lastOcc
    cases hf : (wpOccs ⟨w, pj, intern⟩).reverse.find? (fun p => p.1 = tc) with
    | some q => simp [hf]
    | none => simp [hf, dget]


/-! ### Calendar instants (day granularity) and relativedelta -/

/-- A calendar instant at day granularity: the pipeline's parsed dates
are midnight datetimes, and `datetime.now()` is modelled by an explicit
date argument. -/
structure SDate where
  year : Int
  month : Int
  day : Int
deriving DecidableEq, Repr

/-- Lexicographic comparison, matching datetime ordering. -/
def dateLt (a b : SDate) : Prop :=
  a.year < b.year
  ∨ (a.year = b.year ∧ (a.month < b.month ∨ (a.month = b.month ∧ a.day < b.day)))

instance (a b : SDate) : Decidable (dateLt a b) := by
  unfold dateLt
  infer_instance

/-- Gregorian leap-year rule. -/
def isLeap (y : Int) : Bool :=
  y.emod 4 = 0 && (y.emod 100 != 0 || y.emod 400 = 0)

/-- Length of month `m` of year `y` (months numbered 1..12). -/
def monthLen (y m : Int) : Int :=
  if m = 2 then (if isLeap y then 29 else 28)
  else if m = 4 ∨ m = 6 ∨ m = 9 ∨ m = 11 then 30
  else 31

/-- Days in year `y` strictly before month `m`. -/
def daysBeforeMonth (y m : Int) : Int :=
  (List.range 12).foldl
    (fun acc i => if (i : Int) + 1 < m then acc + monthLen y ((i : Int) + 1) else acc) 0

/-- Proleptic Gregorian day number (rata die: 0001-01-01 is day 1), so
that `toDays e - toDays s` is `(e - s).days` for midnight datetimes. -/
def toDays (d : SDate) : Int :=
  365 * (d.year - 1) + (d.year - 1).fdiv 4 - (d.year - 1).fdiv 100
    + (d.year - 1).fdiv 400 + daysBeforeMonth d.year d.month + d.day

/-- Shift a date by `n` months, clamping the day to the target month's
length (dateutil's month arithmetic in `relativedelta.__radd__`). -/
def addMonthsD (d : SDate) (n : Int) : SDate :=
  let t := d.year * 12 + (d.month - 1) + n
  let y := t.ediv 12
  let m := t.emod 12 + 1
  ⟨y, m, min d.day (monthLen y m)⟩

/-- dateutil's sign-aware `_set_months`, splitting a month count into
(years, months) via `divmod(months * sign, 12)`. -/
def setMonths (mo : Int) : Int × Int :=
  if 11 < mo.natAbs then
    let s : Int := if 0 ≤ mo then 1 else -1
    ((mo * s).ediv 12 * s, (mo * s).emod 12 * s)
  else (0, mo)

/-- The correction loop of `relativedelta(dt1, dt2)`: starting from the
raw month difference, step by one while the month-shifted `dt2` lies on
the wrong side of `dt1`.  Fuel-bounded: each step moves the shifted date
by about one month, so the adjustment is a handful of steps and 48 is
ample. -/
def rdAdjust (dt1 dt2 : SDate) : Nat → Int → Int
  | 0, mo => mo
  | fuel + 1, mo =>
      let dtm := addMonthsD dt2 mo
      if dateLt dt1 dt2 then
        if dateLt dtm dt1 then rdAdjust dt1 dt2 fuel (mo + 1) else mo
      else
        if dateLt dt1 dtm then rdAdjust dt1 dt2 fuel (mo - 1) else mo

/-- `relativedelta(dt1, dt2)` restricted to its (years, months, days)
components, as used by calculate_date_difference. -/
def relativedeltaYMD (dt1 dt2 : SDate) : Int × Int × Int :=
  let m0 := (dt1.year - dt2.year) * 12 + (dt1.month - dt2.month)
  let mo := rdAdjust dt1 dt2 48 m0
  let dtm := addMonthsD dt2 mo
  let days := toDays dt1 - toDays dtm
  let ym := setMonths mo
  (ym.1, ym.2, days)

/-- calculate_date_difference (addPeriod.py lines 21-51), abstracting
`search_dates` by the list of dates it found, the `"PRESENT" in text`
test by a flag, and `nowdate()` by an explicit date.  The return value
is a Python value: a `[years, months, days]` list or one of the
error-message strings — note the error cases are returned, not
raised. -/
def calculate_date_difference (dates : List SDate) (hasPresent : Bool) (now : SDate) : PVal :=
  match dates with
  | [] => PVal.pstr "No valid dates found in the text."
  | [d] =>
      if hasPresent then
        let r := relativedeltaYMD now d
        PVal.plist [r.1, r.2.1, r.2.2]
      else PVal.pstr "No end date provided in the text."
  | d1 :: d2 :: _ =>
      let r := relativedeltaYMD d2 d1
      PVal.plist [r.1, r.2.1, r.2.2]

/-! ### skills_service.py duration parsing and period calculation -/

/-- Python's substring operator `in` on strings. -/
def strContains (s sub : String) : Bool := decide (sub.data <:+: s.data)

/-- `startsWith` on character lists. -/
def startsWithL : List Char → List Char → Bool
  | [], _ => true
  | _ :: _, [] => false
  | s :: ss, c :: cs => s = c && startsWithL ss cs

/-- Splitting on a non-empty separator, scanning left to right
(Python's `str.split(sep)` / Lean's `String.splitOn` semantics); the
fuel is one step per consumed character, so `length + 1` always
suffices. -/
def splitGo (sep : List Char) : Nat → List Char → List Char → List (List Char)
  | _, [], acc => [acc.reverse]
  | 0, l, acc => [acc.reverse ++ l]
  | fuel + 1, c :: rest, acc =>
      if startsWithL sep (c :: rest) then
        acc.reverse :: splitGo sep fuel ((c :: rest).drop sep.length) []
      else splitGo sep fuel rest (c :: acc)

/-- `s.split(sep)` for a non-empty separator. -/
def splitOnS (sep : String) (s : String) : List String :=
  (splitGo sep.data (s.data.length + 1) s.data []).map String.mk

/-- `s.strip()`: drop whitespace from both ends. -/
def trimL (l : List Char) : List Char :=
  ((l.dropWhile Char.isWhitespace).reverse.dropWhile Char.isWhitespace).reverse

def trimS (s : String) : String := String.mk (trimL s.data)

/-- `s.lower()`. -/
def toLowerS (s : String) : String := String.mk (s.data.map Char.toLower)

def isDigitChar (c : Char) : Bool := '0' ≤ c && c ≤ '9'

/-- Numeric value of a digit string. -/
def digitsVal (l : List Char) : Int :=
  l.foldl (fun acc c => acc * 10 + ((c.toNat : Int) - ('0'.toNat : Int))) 0

def allDigits (s : String) : Bool := s.data.all isDigitChar && !s.data.isEmpty

/-- CPython strptime `%Y`: exactly four digits. -/
def matchY4 (s : String) : Option Int :=
  if allDigits s && s.length = 4 then some (digitsVal s.data) else none

/-- CPython strptime `%m`: one or two digits giving a month in 1..12. -/
def matchMonthNum (s : String) : Option Int :=
  if allDigits s && (s.length = 1 || s.length = 2) then
    let v := digitsVal s.data
    if 1 ≤ v ∧ v ≤ 12 then some v else none
  else none

def monthFull : List (String × Int) :=
  [("january", 1), ("february", 2), ("march", 3), ("april", 4), ("may", 5),
   ("june", 6), ("july", 7), ("august", 8), ("september", 9), ("october", 10),
   ("november", 11), ("december", 12)]

def monthAbbr : List (String × Int) :=
  [("jan", 1), ("feb", 2), ("mar", 3), ("apr", 4), ("may", 5), ("jun", 6),
   ("jul", 7), ("aug", 8), ("sep", 9), ("oct", 10), ("nov", 11), ("dec", 12)]

/-- `%B %Y` / `%b %Y`: month name, a space, then a four-digit year; the
day defaults to 1 (matching against the already-lowercased input). -/
def matchNameYear (table : List (String × Int)) (s : String) : Option SDate :=
  match splitOnS " " s with
  | [name, y] =>
      match (table.find? (fun p => p.1 = name)).map Prod.snd with
      | some mo =>
          match matchY4 y with
          | some yr => some ⟨yr, mo, 1⟩
          | none => none
      | none => none
  | _ => none

/-- `%Y`: year only; month and day default to 1. -/
def matchYearOnly (s : String) : Option SDate :=
  (matchY4 s).map (fun yr => ⟨yr, 1, 1⟩)

/-- `%m/%Y`. -/
def matchMY (s : String) : Option SDate :=
  match splitOnS "/" s with
  | [ms, ys] =>
      match matchMonthNum ms, matchY4 ys with
      | some mo, some yr => some ⟨yr, mo, 1⟩
      | _, _ => none
  | _ => none

/-- `%Y-%m`. -/
def matchYM (s : String) : Option SDate :=
  match splitOnS "-" s with
  | [ys, ms] =>
      match matchY4 ys, matchMonthNum ms with
      | some yr, some mo => some ⟨yr, mo, 1⟩
      | _, _ => none
  | _ => none

/-- `_parse_date` (skills_service.py lines 99-125): lowercase and strip,
special-case "present"/"current" to now, then try the ordered format
list; `None` when no format matches.  The function is total — every
`ValueError` a failing `strptime` raises is caught by the `continue`. -/
def parse_date (s : String) (now : SDate) : Option SDate :=
  let t := trimS (toLowerS s)
  if strContains t "present" || strContains t "current" then some now
  else
    match matchNameYear monthFull t with
    | some d => some d
    | none =>
    match matchNameYear monthAbbr t with
    | some d => some d
    | none =>
    match matchYearOnly t with
    | some d => some d
    | none =>
    match matchMY t with
    | some d => some d
    | none => matchYM t

/-- `_parse_duration` (skills_service.py lines 66-97): split on `" - "`
first, then `" to "`; otherwise parse the whole string as the start and
use "now" as the end only when the string mentions "present".  Total —
the surrounding `try` catches any exception into `(None, None)`. -/
def parse_duration (s : String) (now : SDate) : Option SDate × Option SDate :=
  if strContains s " - " then
    match splitOnS " - " s with
    | a :: b :: _ => (parse_date (trimS a) now, parse_date (trimS b) now)
    | _ => (none, none)
  else if strContains s " to " then
    match splitOnS " to " s with
    | a :: b :: _ => (parse_date (trimS a) now, parse_date (trimS b) now)
    | _ => (none, none)
  else
    (parse_date s now, if strContains (toLowerS s) "present" then some now else none)

/-- `_calculate_period_months` (skills_service.py lines 127-142): `None`
on a missing side, `int((end - start).days / 30.44)` when `end > start`,
and `0` otherwise.  The float quotient by the average month length
30.44 is the exact rational `days * 100 / 3044`, and `int()` truncates
toward zero, which on integers is `Int.tdiv`. -/
def calculate_period_months (start : Option SDate) (stop : Option SDate) : Option Int :=
  match start, stop with
  | some s, some e =>
      if dateLt s e then some (Int.tdiv (100 * (toDays e - toDays s)) 3044)
      else some 0
  | _, _ => none


/-! ### Claims C2, C7, C8 -/

/-- C2 counterexample: with the found dates in reversed order (start
June 2021, end March 2019, so end < start), calculate_date_difference
returns `[-2, -3, 0]` — negative components, not the zero triple the
claim requires. -/
theorem C2_cex_reversed_dates_negative_triple :
    calculate_date_difference [⟨2021, 6, 1⟩, ⟨2019, 3, 1⟩] false ⟨2024, 1, 1⟩
      = PVal.plist [-2, -3, 0]
  ∧ ¬ (calculate_date_difference [⟨2021, 6, 1⟩, ⟨2019, 3, 1⟩] false ⟨2024, 1, 1⟩
      = PVal.plist [0, 0, 0])
  ∧ (-2 : Int) < 0 := by
  refine ⟨rfl, ?_, by norm_num⟩
  intro h
  rw [show calculate_date_difference [⟨2021, 6, 1⟩, ⟨2019, 3, 1⟩] false ⟨2024, 1, 1⟩
      = PVal.plist [-2, -3, 0] from rfl] at h
  cases h

/-- C2 (amended): the total-months representation is clamped — for
end <= start, `_calculate_period_months` returns 0, never a negative —
but the triple representation is NOT: `calculate_date_difference`
passes the reversed dates straight to relativedelta and returns
negative components (e.g. `[-2, -3, 0]` for June 2021 vs March 2019). -/
theorem C2_amended_months_clamped_triple_unclamped :
    (∀ (s e : SDate), ¬ dateLt s e →
        calculate_period_months (some s) (some e) = some 0)
  ∧ calculate_date_difference [⟨2021, 6, 1⟩, ⟨2019, 3, 1⟩] false ⟨2024, 1, 1⟩
      = PVal.plist [-2, -3, 0] := by
  refine ⟨?_, rfl⟩
  intro s e h
  unfold calculate_period_months
  dsimp only
  rw [if_neg h]

/-- C2 witness: equal instants give a zero month count. -/
theorem C2_amended_months_clamped_triple_unclamped_witness :
    calculate_period_months (some ⟨2020, 5, 17⟩) (some ⟨2020, 5, 17⟩) = some 0 :=
  C2_amended_months_clamped_triple_unclamped.1 ⟨2020, 5, 17⟩ ⟨2020, 5, 17⟩ (by decide)

/-- C7: confirmed — duration parsing is a total function (the `try`
blocks and per-format `continue` of the source ensure every failure is
returned, not raised): a side on which none of the five date formats
match and which lacks the present/current tokens parses to `None`, and
`parse_duration("not a date")` is `(None, None)`. -/
theorem C7_parse_duration_total_none_on_mismatch :
    (∀ (now : SDate), parse_duration "not a date" now = (none, none))
  ∧ (∀ (s : String) (now : SDate),
        strContains (trimS (toLowerS s)) "present" = false →
        strContains (trimS (toLowerS s)) "current" = false →
        matchNameYear monthFull (trimS (toLowerS s)) = none →
        matchNameYear monthAbbr (trimS (toLowerS s)) = none →
        matchYearOnly (trimS (toLowerS s)) = none →
        matchMY (trimS (toLowerS s)) = none →
        matchYM (trimS (toLowerS s)) = none →
          parse_date s now = none) := by
  constructor
  · intro now
    rfl
  · intro s now h1 h2 h3 h4 h5 h6 h7
    simp only [parse_date]
    rw [h1, h2]
    simp only [Bool.or_self, Bool.false_eq_true, if_false]
    rw [h3, h4, h5, h6, h7]

/-- C7 witness: the concrete unparseable input. -/
theorem C7_parse_duration_total_none_on_mismatch_witness :
    parse_duration "not a date" ⟨2024, 1, 1⟩ = (none, none)
  ∧ parse_date "not a date" ⟨2024, 1, 1⟩ = none :=
  ⟨C7_parse_duration_total_none_on_mismatch.1 ⟨2024, 1, 1⟩,
   C7_parse_duration_total_none_on_mismatch.2 "not a date" ⟨2024, 1, 1⟩
     rfl rfl rfl rfl rfl rfl rfl⟩

/-- `int()` truncation toward zero of a rational. -/
def ratTrunc (q : ℚ) : Int := if 0 ≤ q then ⌊q⌋ else ⌈q⌉

/-- The claim-side formula of C8, following the spec's words: "total
whole months, computed as days_elapsed / 30.44 truncated toward zero",
in exact rational arithmetic. -/
def specTotalMonths (s e : SDate) : Int :=
  ratTrunc (((toDays e - toDays s : Int) : ℚ) / (3044 / 100))

theorem tdiv_100_3044 (d : Int) :
    Int.tdiv (100 * d) 3044 = ratTrunc ((d : ℚ) / (3044 / 100)) := by
  have hq : (d : ℚ) / (3044 / 100) = ((100 * d : Int) : ℚ) / ((3044 : ℕ) : ℚ) := by
    push_cast
    ring
  rw [hq]
  unfold ratTrunc
  by_cases hd : 0 ≤ d
  · have h100 : (0 : Int) ≤ 100 * d := by omega
    have hq0 : (0 : ℚ) ≤ ((100 * d : Int) : ℚ) / ((3044 : ℕ) : ℚ) := by
      apply div_nonneg
      · exact_mod_cast h100
      · norm_num
    rw [if_pos hq0, Rat.floor_intCast_div_natCast]
    rw [Int.tdiv_eq_ediv h100 (by norm_num)]
    norm_num
  · push_neg at hd
    have h100 : 100 * d < 0 := by omega
    have hq0 : ¬ (0 : ℚ) ≤ ((100 * d : Int) : ℚ) / ((3044 : ℕ) : ℚ) := by
      rw [not_le]
      apply div_neg_of_neg_of_pos
      · exact_mod_cast h100
      · norm_num
    rw [if_neg hq0]
    rw [show ⌈((100 * d : Int) : ℚ) / ((3044 : ℕ) : ℚ)⌉
        = -⌊-(((100 * d : Int) : ℚ) / ((3044 : ℕ) : ℚ))⌋ from by
      rw [Int.floor_neg, neg_neg]]
    rw [show -(((100 * d : Int) : ℚ) / ((3044 : ℕ) : ℚ))
        = ((-(100 * d) : Int) : ℚ) / ((3044 : ℕ) : ℚ) from by push_cast; ring]
    rw [Rat.floor_intCast_div_natCast]
    have h1 : Int.tdiv (100 * d) 3044 = -(Int.tdiv (-(100 * d)) 3044) := by
      rw [Int.neg_tdiv, neg_neg]
    have h2 : Int.tdiv (-(100 * d)) 3044 = (-(100 * d)) / 3044 :=
      Int.tdiv_eq_ediv (by omega) (by norm_num)
    rw [h1, h2]
    norm_num

/-- C8: confirmed — for end strictly after start, the total-whole-months
value the code computes equals `days_elapsed / 30.44` truncated toward
zero, exactly (in exact rational arithmetic for the float quotient). -/
theorem C8_total_months_is_truncated_day_quotient (s e : SDate) (h : dateLt s e) :
    calculate_period_months (some s) (some e) = some (specTotalMonths s e) := by
  unfold calculate_period_months specTotalMonths
  dsimp only
  rw [if_pos h, tdiv_100_3044]

/-- C8 witness: Jan 1 2020 to Jan 1 2021 is 366 days, 12 whole months. -/
theorem C8_total_months_is_truncated_day_quotient_witness :
    calculate_period_months (some ⟨2020, 1, 1⟩) (some ⟨2021, 1, 1⟩)
      = some (specTotalMonths ⟨2020, 1, 1⟩ ⟨2021, 1, 1⟩)
  ∧ calculate_period_months (some ⟨2020, 1, 1⟩) (some ⟨2021, 1, 1⟩) = some 12 :=
  ⟨C8_total_months_is_truncated_day_quotient ⟨2020, 1, 1⟩ ⟨2021, 1, 1⟩ (by decide),
   rfl⟩


/-! ### enhance_skills (skills_service.py) over dynamic Python values -/

/-- A dynamic Python value as passed through enhance_skills. -/
inductive JVal where
  | s (v : String)
  | i (v : Int)
  | none'
  | date (d : SDate)
  | list (l : List JVal)
  | dict (l : List (String × JVal))
deriving Repr

/-- Python truthiness. -/
def truthyJ : JVal → Bool
  | .s v => if v = "" then false else true
  | .i v => if v = 0 then false else true
  | .none' => false
  | .date _ => true
  | .list l => if l.isEmpty then false else true
  | .dict l => if l.isEmpty then false else true

/-- Python `key in v`: key membership for dicts, substring for strings,
element equality for lists; `TypeError` otherwise. -/
def inJ (key : String) : JVal → Except Unit Bool
  | .dict l => .ok (l.any (fun p => p.1 = key))
  | .s v => .ok (strContains v key)
  | .list l => .ok (l.any (fun x => match x with | .s t => t = key | _ => false))
  | _ => .error ()

/-- Python `for x in v`: list elements, dict keys, characters of a
string (as one-character strings); `TypeError` otherwise. -/
def iterJ : JVal → Except Unit (List JVal)
  | .list l => .ok l
  | .dict l => .ok (l.map (fun p => .s p.1))
  | .s v => .ok (v.data.map (fun c => .s (String.mk [c])))
  | _ => .error ()

/-- Python `len(v)`: `TypeError` on unsized values. -/
def lenJ : JVal → Except Unit Int
  | .list l => .ok l.length
  | .dict l => .ok l.length
  | .s v => .ok v.length
  | _ => .error ()

/-- Python `d[k]` on a dict: `KeyError` when absent. -/
def keyGet (m : List (String × JVal)) (k : String) : Except Unit JVal :=
  match dget m k with
  | some v => .ok v
  | none => .error ()

/-- `.lower()`: `AttributeError` on non-strings. -/
def lowerJ : JVal → Except Unit String
  | .s v => .ok (toLowerS v)
  | _ => .error ()

def jOptDate : Option SDate → JVal
  | some d => .date d
  | none => .none'

def jOptInt : Option Int → JVal
  | some n => .i n
  | none => .none'

/-- `self._parse_duration(duration)` with a non-string argument: the
`" - " in duration` test raises `TypeError`, caught by the function's
own `try` into `(None, None)`. -/
def parseDurationJ (v : JVal) (now : SDate) : Option SDate × Option SDate :=
  match v with
  | .s s => parse_duration s now
  | _ => (none, none)

/-- One entry of `_add_period_fields` (lines 52-62): copy the dict and,
when `duration` is truthy, add `start_date`, `end_date` and
`period_months`; a non-dict entry raises on `.copy()`/`.get`. -/
def enhanceExpJ (now : SDate) : JVal → Except Unit JVal
  | .dict m =>
      let dur := (dget m "duration").getD (.s "")
      if truthyJ dur then
        let sd := (parseDurationJ dur now).1
        let ed := (parseDurationJ dur now).2
        let m1 := dictSet m "start_date" (jOptDate sd)
        let m2 := dictSet m1 "end_date" (jOptDate ed)
        let m3 := dictSet m2 "period_months" (jOptInt (calculate_period_months sd ed))
        .ok (.dict m3)
      else .ok (.dict m)
  | _ => .error ()

/-- `_add_period_fields` (lines 48-64): iterate the experience value,
enhance each entry, and return the new list. -/
def addPeriodFieldsJ (v : JVal) (now : SDate) : Except Unit JVal := do
  let elems ← iterJ v
  let out ← elems.mapM (enhanceExpJ now)
  pure (.list out)

/-- One group of `_format_skills` (lines 148-155): dict-shaped groups
with a `skills` key are reformatted — `len(...)` raises on unsized
values; every other element is skipped. -/
def formatGroupJ (g : JVal) : Except Unit (Option JVal) :=
  match g with
  | .dict gm =>
      if gm.any (fun p => p.1 = "skills") then
        match dget gm "skills" with
        | some sk =>
            match lenJ sk with
            | .ok n => .ok (some (.dict
                [("category", (dget gm "category").getD (.s "Other")),
                 ("skills", sk), ("count", .i n)]))
            | .error e => .error e
        | none => .error ()
      else .ok none
  | _ => .ok none

/-- `_format_skills` (lines 144-157). -/
def formatSkillsJ (v : JVal) : Except Unit JVal := do
  let elems ← iterJ v
  let gs ← elems.foldlM (fun acc g => do
      match ← formatGroupJ g with
      | some fg => pure (acc ++ [fg])
      | none => pure acc) []
  pure (.list gs)

/-- The hard-coded skill lexicon of `_extract_skills_from_text`. -/
def commonSkills : List String :=
  ["Python", "Java", "JavaScript", "React", "Node.js", "SQL", "MongoDB",
   "AWS", "Docker", "Kubernetes", "Git", "Agile", "Scrum", "Machine Learning",
   "Data Analysis", "Project Management", "Leadership", "Communication"]

/-- `_extract_skills_from_text` (lines 183-199): case-insensitive
substring search over the lexicon, in lexicon order. -/
def extractSkillsFromText (text : String) : List String :=
  commonSkills.filter (fun sk => strContains (toLowerS text) (toLowerS sk))

/-- One experience entry of `_extract_skills_periods` (lines 166-179). -/
def extractExpJ (exp : JVal) : Except Unit (List JVal) := do
  let hasDesc ← inJ "description" exp
  if hasDesc then
    match exp with
    | .dict em => do
        let descV ← keyGet em "description"
        match descV with
        | .s txt =>
            pure ((extractSkillsFromText txt).map (fun sk => JVal.dict
              [("skill", .s sk),
               ("start_date", (dget em "start_date").getD .none'),
               ("end_date", (dget em "end_date").getD .none'),
               ("period_months", (dget em "period_months").getD .none'),
               ("context", (dget em "title").getD (.s "")),
               ("company", (dget em "company").getD (.s ""))]))
        | _ => .error ()
    | _ => .error ()
  else
    pure []

/-- `_extract_skills_periods` (lines 159-181). -/
def extractSkillsPeriodsJ (d : JVal) : Except Unit (List JVal) := do
  let hasExp ← inJ "experience" d
  if !hasExp then pure []
  else
    match d with
    | .dict m => do
        let exps ← iterJ ((dget m "experience").getD .none')
        exps.foldlM (fun acc exp => do
          let ps ← extractExpJ exp
          pure (acc ++ ps)) []
    | _ => .error ()

/-- Equality of hashable scalar values when used as dict keys. -/
def scalarEq : JVal → JVal → Bool
  | .s a, .s b => a = b
  | .i a, .i b => a = b
  | .none', .none' => true
  | .date a, .date b => a = b
  | _, _ => false

def isHashable : JVal → Bool
  | .list _ => false
  | .dict _ => false
  | _ => true

/-- The accumulating entry of `_sum_skills_periods`. -/
structure SkillSum where
  skill : JVal
  months : Int
  contexts : List JVal
  companies : List JVal

/-- One loop iteration of `_sum_skills_periods` (lines 205-223):
`period_months` is `.get(..., 0) or 0` (falsy to 0; adding a truthy
non-integer raises), contexts and companies appended when truthy,
entries created on first occurrence (insertion order kept).  An
unhashable `skill` value raises on the dict indexing. -/
def sumStepJ (acc : List (JVal × SkillSum)) (sp : JVal) :
    Except Unit (List (JVal × SkillSum)) :=
  match sp with
  | .dict m => do
      let skillV ← keyGet m "skill"
      if !isHashable skillV then .error () else do
      let pmRaw := (dget m "period_months").getD (.i 0)
      let pm := if truthyJ pmRaw then pmRaw else .i 0
      let pmInt ← (match pm with
        | .i n => Except.ok n
        | _ => Except.error ())
      let ctx := (dget m "context").getD .none'
      let co := (dget m "company").getD .none'
      let upd : SkillSum → SkillSum := fun e =>
        { e with
          months := e.months + pmInt,
          contexts := if truthyJ ctx then e.contexts ++ [ctx] else e.contexts,
          companies := if truthyJ co then e.companies ++ [co] else e.companies }
      match acc.find? (fun q => scalarEq q.1 skillV) with
      | some _ =>
          pure (acc.map (fun q => if scalarEq q.1 skillV then (q.1, upd q.2) else q))
      | none =>
          pure (acc ++ [(skillV, upd ⟨skillV, 0, [], []⟩)])
  | _ => .error ()

/-- `_sum_skills_periods` (lines 201-230): accumulate, then keep the
entries whose total reaches the 0.8 threshold. -/
def sumSkillsPeriodsJ (sps : List JVal) (threshold : ℚ) : Except Unit (List JVal) := do
  let summary ← sps.foldlM sumStepJ []
  pure ((summary.filter (fun q => threshold ≤ (q.2.months : ℚ))).map (fun q =>
    JVal.dict [("skill", q.2.skill), ("total_months", .i q.2.months),
      ("contexts", .list q.2.contexts), ("companies", .list q.2.companies)]))

/-- Scan the summed skills for the first whose `skill` string matches
case-insensitively, returning its `total_months` and `contexts` (the
summary dicts carry all keys by construction). -/
def findEnhanced (skLower : String) : List JVal → Except Unit (Option (JVal × JVal))
  | [] => .ok none
  | e :: rest =>
      match e with
      | .dict em => do
          let sv ← keyGet em "skill"
          let sl ← lowerJ sv
          if sl = skLower then do
            let tm ← keyGet em "total_months"
            let cx ← keyGet em "contexts"
            pure (some (tm, cx))
          else findEnhanced skLower rest
      | _ => .error ()

/-- The inner skill loop of `_update_existing_skills` (lines 245-250)
over one group dict: each matching skill writes `experience_months` and
`contexts` into the group; an error carries the group as mutated so
far. -/
def groupSkillsLoop (summed : List JVal) :
    List JVal → List (String × JVal) → Except (List (String × JVal)) (List (String × JVal))
  | [], gm => .ok gm
  | sk :: rest, gm =>
      match sk with
      | .s sv =>
          match findEnhanced (toLowerS sv) summed with
          | .ok (some (tm, cx)) =>
              groupSkillsLoop summed rest
                (dictSet (dictSet gm "experience_months" tm) "contexts" cx)
          | .ok none => groupSkillsLoop summed rest gm
          | .error _ => .error gm
      | _ => .error gm

/-- One `skill_group` iteration (lines 243-250): groups without a
`skills` member are skipped; non-dict groups with one raise. -/
def groupStepJ (summed : List JVal) (g : JVal) : Except JVal JVal :=
  match inJ "skills" g with
  | .error _ => .error g
  | .ok false => .ok g
  | .ok true =>
      match g with
      | .dict gm =>
          match dget gm "skills" with
          | some sks =>
              match iterJ sks with
              | .ok elems =>
                  match groupSkillsLoop summed elems gm with
                  | .ok gm' => .ok (.dict gm')
                  | .error gm' => .error (.dict gm')
              | .error _ => .error g
          | none => .error g
      | _ => .error g

/-- The group loop: an error in one group keeps earlier groups' (and the
failing group's partial) mutations and the untouched tail. -/
def groupsLoopJ (summed : List JVal) : List JVal → Except (List JVal) (List JVal)
  | [] => .ok []
  | g :: rest =>
      match groupStepJ summed g with
      | .ok g' =>
          match groupsLoopJ summed rest with
          | .ok gs => .ok (g' :: gs)
          | .error gs => .error (g' :: gs)
      | .error g' => .error (g' :: rest)

/-- `_update_existing_skills` (lines 232-252): `enhanced_data` is a
shallow copy, so the `enhanced_skills` key lands only on the copy while
the group dicts under `skills` are shared — their mutations survive in
`resume_data` when an exception later unwinds.  On error the carried
value is `resume_data` as mutated so far. -/
def updateExistingSkillsJ (summed : List JVal) (d : JVal) (ts : String) :
    Except JVal JVal :=
  match d with
  | .dict m =>
      let enh : JVal := .dict
        [("skills_with_experience", .list summed),
         ("total_skills", .i summed.length),
         ("analysis_timestamp", .s ts)]
      let m1 := dictSet m "enhanced_skills" enh
      if m1.any (fun p => p.1 = "skills") then
        match (dget m "skills").getD .none' with
        | .list l =>
            match groupsLoopJ summed l with
            | .ok gs => .ok (.dict (dictSet m1 "skills" (.list gs)))
            | .error gs => .error (.dict (dictSet m "skills" (.list gs)))
        | .s sv => .ok (.dict m1)
        | .dict dm =>
            if dm.any (fun p => strContains p.1 "skills") then .error (.dict m)
            else .ok (.dict m1)
        | _ => .error (.dict m)
      else .ok (.dict m1)
  | .list _ => .error d
  | _ => .error d

/-- The body of `enhance_skills` (skills_service.py lines 26-42) as a
stage pipeline threading the mutated `resume_data`; `Except.error`
carries the mapping as mutated by the stages completed before the
exception (per-stage assignments happen only on stage success). -/
def enhanceBody (d : JVal) (now : SDate) (ts : String) : Except JVal JVal :=
  match (match inJ "experience" d with
         | .error _ => Except.error ()
         | .ok true =>
             match d with
             | .dict m =>
                 (match addPeriodFieldsJ ((dget m "experience").getD .none') now with
                  | .ok v => .ok (JVal.dict (dictSet m "experience" v))
                  | .error e => .error e)
             | _ => .error ()
         | .ok false => .ok d) with
  | .error _ => .error d
  | .ok d1 =>
  match (match inJ "skills" d1 with
         | .error _ => Except.error ()
         | .ok true =>
             match d1 with
             | .dict m =>
                 (match formatSkillsJ ((dget m "skills").getD .none') with
                  | .ok v => .ok (JVal.dict (dictSet m "skills" v))
                  | .error e => .error e)
             | _ => .error ()
         | .ok false => .ok d1) with
  | .error _ => .error d1
  | .ok d2 =>
  match extractSkillsPeriodsJ d2 with
  | .error _ => .error d2
  | .ok sps =>
  match sumSkillsPeriodsJ sps (4/5) with
  | .error _ => .error d2
  | .ok summed => updateExistingSkillsJ summed d2 ts

/-- `enhance_skills` (lines 16-46): the catch-all `except` returns
`resume_data` — the same mapping, carrying whatever mutations the
completed stages applied. -/
def enhance_skills (d : JVal) (now : SDate) (ts : String) : JVal :=
  match enhanceBody d now ts with
  | .ok r => r
  | .error st => st

/-- An input whose experience stage succeeds (mutating the entry) and
whose skills stage raises (`_format_skills` iterates an integer). -/
def exInput : JVal :=
  .dict [("experience", .list [.dict [("duration", .s "2020 - 2021")]]),
         ("skills", .i 7)]

/-- `exInput` after the experience stage: the duration has been parsed
and the period fields added; the skills value is untouched. -/
def exPartial : JVal :=
  .dict [("experience", .list [.dict
          [("duration", .s "2020 - 2021"),
           ("start_date", .date ⟨2020, 1, 1⟩),
           ("end_date", .date ⟨2021, 1, 1⟩),
           ("period_months", .i 12)]]),
         ("skills", .i 7)]


/-- C10: confirmed — enhance_skills never propagates an exception: the
pipeline body either completes (`Except.ok`) and its value is returned,
or an internal stage raises (`Except.error`, carrying `resume_data` as
mutated by the stages that completed) and that mapping is returned; on
the concrete input `exInput` the skills stage raises after the
experience stage already mutated the data, and the returned mapping is
the mutated `exPartial`, not the original. -/
theorem C10_enhance_skills_never_propagates :
    (∀ (d : JVal) (now : SDate) (ts : String),
        (∃ r, enhanceBody d now ts = .ok r ∧ enhance_skills d now ts = r)
      ∨ (∃ st, enhanceBody d now ts = .error st ∧ enhance_skills d now ts = st))
  ∧ enhanceBody exInput ⟨2024, 1, 15⟩ "t0" = .error exPartial
  ∧ enhance_skills exInput ⟨2024, 1, 15⟩ "t0" = exPartial
  ∧ ¬ (exPartial = exInput) := by
  refine ⟨?_, rfl, rfl, ?_⟩
  · intro d now ts
    cases h : enhanceBody d now ts with
    | ok r =>
        exact Or.inl ⟨r, rfl, by unfold enhance_skills; rw [h]⟩
    | error st =>
        exact Or.inr ⟨st, rfl, by unfold enhance_skills; rw [h]⟩
  · intro h
    simp only [exPartial, exInput, JVal.dict.injEq, List.cons.injEq,
      Prod.mk.injEq, JVal.list.injEq] at h
    exact List.cons_ne_nil _ _ h.1.2.1.2


end ResumeCore
